import Mathlib

/-!
Shallow embedding of the `transform_betas` repository
(`src/transform_betas.py` and `src/streamlit_app.py`).

Numbers are modelled as elements of a linear ordered field (instantiated at
`ℝ` for the pipeline, whose standard deviation uses a square root, and at `ℚ`
for concrete evaluations); a NaN / missing cell is `none : Option _`.
`numpy` NaN-propagating arithmetic is modelled by `Option`-valued operations.
-/

namespace TransformBetas

/-- Models `np.searchsorted(sorted_arr, x, side="right")` as called in
`excel_percentrank_exc` (`src/transform_betas.py` line 114, `src/streamlit_app.py`
line 53): for an ascending sorted array the right-insertion index is exactly the
number of elements that are `≤ x`. -/
def searchsortedRight {α : Type} [LinearOrder α] (sorted_arr : List α) (x : α) : Nat :=
  sorted_arr.countP (fun y => y ≤ x)

/-- `excel_percentrank_exc(sorted_arr, x)` from `src/transform_betas.py` lines
92–120 (identical in `src/streamlit_app.py` lines 40–57).  `np.nan` is `none`.
`sorted_arr[0]` and `sorted_arr[-1]` are `getD 0` / `getD (n-1)`; the defaults
are never consulted because the `n < 2` branch has already returned.  In the
final branch the Python `k = idx - 1` is modelled by the same subtraction on
`Nat`; `idx ≥ 1` holds there because `x > sorted_arr[0]` (proved below), so no
truncation occurs. -/
def excel_percentrank_exc {α : Type} [LinearOrderedField α]
    (sorted_arr : List α) (x : α) : Option α :=
  let n := sorted_arr.length
  if n < 2 then none
  else if x < sorted_arr.getD 0 0 ∨ x > sorted_arr.getD (n - 1) 0 then none
  else if x = sorted_arr.getD 0 0 then some (1 / ((n : α) + 1))
  else if x = sorted_arr.getD (n - 1) 0 then some ((n : α) / ((n : α) + 1))
  else
    let idx := searchsortedRight sorted_arr x
    let k := idx - 1
    let xk := sorted_arr.getD k 0
    let xk1 := sorted_arr.getD (k + 1) 0
    let fraction := (x - xk) / (xk1 - xk)
    some (((k : α) + fraction) / ((n : α) + 1))

/-! ### The numeric pipeline over `ℝ`

A column is a `List (Option ℝ)`: `none` is a NaN / missing cell (the result of
`pd.to_numeric(..., errors="coerce")` on a missing or unparseable cell).  The
sample standard deviation takes a real square root, so this part of the
development lives in a `noncomputable section`. -/

noncomputable section

/-- The defined (non-NaN) entries of a column, in order: what `np.nanmean` /
`np.nanstd` average over, and what survives `flat[~np.isnan(flat)]`. -/
def definedVals (col : List (Option ℝ)) : List ℝ :=
  col.filterMap id

/-- Arithmetic mean of a list of reals (`sum / n`). -/
def sampleMean (l : List ℝ) : ℝ :=
  l.sum / l.length

/-- Sample variance with divisor `n - 1` (`ddof=1`). -/
def sampleVar (l : List ℝ) : ℝ :=
  (l.map (fun v => (v - sampleMean l) ^ 2)).sum / ((l.length : ℝ) - 1)

/-- `np.nanmean(vals)`: mean over the defined entries; NaN (`none`) when there
are no defined entries. -/
def nanmean (col : List (Option ℝ)) : Option ℝ :=
  let d := definedVals col
  if d.length = 0 then none else some (sampleMean d)

/-- `np.nanstd(vals, ddof=1)`: square root of the sample variance of the
defined entries.  With fewer than 2 defined entries the divisor `n - ddof` is
`≤ 0` and numpy yields NaN (`none`). -/
def nanstd (col : List (Option ℝ)) : Option ℝ :=
  let d := definedVals col
  if d.length < 2 then none else some (Real.sqrt (sampleVar d))

/-- The column standardizer of `src/streamlit_app.py` lines 74–82:
`if sigma == 0 or np.isnan(sigma): z[col] = np.nan else z[col] = (vals - mu) / sigma`.
(`np.isnan(mu)` implies `np.isnan(sigma)`, so a `none` mean also lands in the
all-`none` branch, exactly as NaN propagation does in numpy.) -/
def standardizeColumn (col : List (Option ℝ)) : List (Option ℝ) :=
  match nanmean col, nanstd col with
  | some mu, some sigma =>
    if sigma = 0 then col.map (fun _ => none)
    else col.map (fun c => c.map (fun v => (v - mu) / sigma))
  | _, _ => col.map (fun _ => none)

/-- NaN-propagating subtraction on `Option ℝ` (numpy float semantics). -/
def nansub : Option ℝ → Option ℝ → Option ℝ
  | some a, some b => some (a - b)
  | _, _ => none

/-- NaN-propagating division on `Option ℝ`.  `0/0` is NaN in numpy, modelled by
`none`.  (A nonzero value divided by zero is `±inf` in numpy, not NaN; that case
is unreachable in this program: the divisor is a sample standard deviation, and
it is zero only when every deviation — every numerator it divides — is zero,
see `sampleVar_eq_zero_imp` and `standardizeColumnCLI_eq`.) -/
def nandiv : Option ℝ → Option ℝ → Option ℝ
  | some a, some b => if b = 0 then none else some (a / b)
  | _, _ => none

/-- The column standardizer of `src/transform_betas.py` lines 176–182:
`z[col] = (vals - mu) / sigma` with no explicit degenerate-column guard; NaN
propagation through `-` and `/` plays that role (proved equal to
`standardizeColumn` in `standardizeColumnCLI_eq`). -/
def standardizeColumnCLI (col : List (Option ℝ)) : List (Option ℝ) :=
  col.map (fun c => nandiv (nansub c (nanmean col)) (nanstd col))

/-- Step 2 of the pipeline: standardize every column independently. -/
def standardizeAll (betas : List (List (Option ℝ))) : List (List (Option ℝ)) :=
  betas.map standardizeColumn

/-- `flat = z.values.flatten(); flat = flat[~np.isnan(flat)]`: all defined
cells of the standardized matrix.  (The code flattens row-major; this embedding
flattens column-major.  The two flattenings are permutations of each other, so
after the sort in `pooled` the results coincide — see `mergeSort_congr_perm`.) -/
def definedCells (cols : List (List (Option ℝ))) : List ℝ :=
  (cols.map definedVals).flatten

/-- `sorted_flat = np.sort(flat)`: the pooled population, sorted ascending. -/
def pooled (cols : List (List (Option ℝ))) : List ℝ :=
  (definedCells cols).mergeSort (fun a b => a ≤ b)

/-- The fixed affine rescaling `(p_exc - 50.5) / 34` applied to the 0–100 scale
percentile `p_exc = p * 100` (`src/transform_betas.py` lines 193–194,
`src/streamlit_app.py` lines 96–97). -/
def rescale (p : ℝ) : ℝ :=
  (p * 100 - 50.5) / 34

/-- `transform_exc` of `src/streamlit_app.py` lines 93–97: NaN for a NaN input
or a pooled population of fewer than 2 elements, otherwise the rescaled
exclusive percentile rank (itself NaN when the rank is NaN). -/
def transform_exc (sorted_flat : List ℝ) (val : Option ℝ) : Option ℝ :=
  match val with
  | none => none
  | some v =>
    if sorted_flat.length < 2 then none
    else (excel_percentrank_exc sorted_flat v).map rescale

/-- `transform_exc` of `src/transform_betas.py` lines 190–194: same function
without the explicit `len < 2` guard — `excel_percentrank_exc` already returns
NaN for populations of fewer than 2 elements and NaN propagates through the
affine map.  Proved equal to `transform_exc` in `transform_excCLI_eq`. -/
def transform_excCLI (sorted_flat : List ℝ) (val : Option ℝ) : Option ℝ :=
  val.bind (fun v => (excel_percentrank_exc sorted_flat v).map rescale)

/-- An input table as the two programs see it after reading: `meta` is
`df.iloc[:, :2]` (the leading metadata columns, at most two, as strings —
`astype(str)` on opaque string cells is the identity), `betas` is
`df.iloc[:, 2:]` after `pd.to_numeric(..., errors="coerce")`, stored
column-major; a missing or unparseable cell is `none`. -/
structure InputFrame where
  meta : List (List String)
  betas : List (List (Option ℝ))

/-- Total column count of the table (`df.shape[1]`). -/
def InputFrame.ncols (f : InputFrame) : Nat :=
  f.meta.length + f.betas.length

/-- An output table: the metadata columns followed by a numeric block
(column-major, cells real-or-undefined). -/
structure OutputFrame where
  meta : List (List String)
  data : List (List (Option ℝ))

/-- `process_dataframe` of `src/streamlit_app.py` lines 60–103: standardize
every column, pool and sort all defined standardized cells once, transform
every cell against that shared population, and re-attach the metadata columns
unchanged to both outputs `(standardized, transformed)`. -/
def process_dataframe (f : InputFrame) : OutputFrame × OutputFrame :=
  let z := standardizeAll f.betas
  let sorted_flat := pooled z
  let transformed := z.map (fun col => col.map (transform_exc sorted_flat))
  (⟨f.meta, z⟩, ⟨f.meta, transformed⟩)

/-- The computational core of `main` in `src/transform_betas.py` lines
160–213 (steps 2–5, after reading): the same pipeline built from the CLI
variants of the standardizer and the transform.  `main` performs no
column-count validation: it always computes and writes both outputs. -/
def runCLI (f : InputFrame) : OutputFrame × OutputFrame :=
  let z := f.betas.map standardizeColumnCLI
  let sorted_flat := pooled z
  let transformed := z.map (fun col => col.map (transform_excCLI sorted_flat))
  (⟨f.meta, z⟩, ⟨f.meta, transformed⟩)

/-- The streamlit run (`src/streamlit_app.py` lines 145–155): the upload is
rejected (`st.error`; `st.stop()`) before any preview or processing when the
table has fewer than 3 columns; otherwise `process_dataframe` runs.  `none`
models the stopped run, which produces no output. -/
def runStreamlit (f : InputFrame) : Option (OutputFrame × OutputFrame) :=
  if f.ncols < 3 then none else some (process_dataframe f)

/-- Cell `j` of column `i` of a column-major numeric block: `some c` when the
position exists (`c` itself is `none` for a NaN cell), `none` when out of
shape. -/
def cellAt (m : List (List (Option ℝ))) (i j : Nat) : Option (Option ℝ) :=
  (m.get? i).bind (fun c => c.get? j)

end

/-! ### Helper lemmas: sorted lists, right insertion index, rank branches -/

example : excel_percentrank_exc [(-2 : ℚ), -1, 0, 1, 2] (-2) = some (1 / 6) := by
  norm_num [excel_percentrank_exc, searchsortedRight, List.countP, List.countP.go]

example : excel_percentrank_exc [(-2 : ℚ), -1, 0, 1, 2] (1 / 2) = some ((2 + 1 / 2) / 6) := by
  norm_num [excel_percentrank_exc, searchsortedRight, List.countP, List.countP.go]

example : excel_percentrank_exc [(-2 : ℚ), -1, 0, 1, 2] 3 = none := by
  norm_num [excel_percentrank_exc, searchsortedRight, List.countP, List.countP.go]

lemma getD_eq_getElem {β : Type _} (l : List β) (d : β) {i : Nat} (h : i < l.length) :
    l.getD i d = l[i] := by
  simp [List.getD_eq_getElem?_getD, List.getElem?_eq_getElem h]

section RankLemmas

variable {α : Type} [LinearOrderedField α]

/-- Entries at positions below the right insertion index of `x` are `≤ x`. -/
lemma getElem_le_of_lt_countP {l : List α} (hs : l.Sorted (· ≤ ·)) {x : α} {i : Nat}
    (h : i < l.length) (hc : i < l.countP (fun y => y ≤ x)) : l[i] ≤ x := by
  induction l generalizing i with
  | nil => simp at h
  | cons a t ih =>
    rw [List.sorted_cons] at hs
    by_cases hax : a ≤ x
    · cases i with
      | zero => simpa using hax
      | succ i' =>
        rw [List.countP_cons_of_pos _ _ (by simpa using hax)] at hc
        have hi' : i' < t.length := by simpa using h
        simpa using ih hs.2 hi' (by omega)
    · exfalso
      have hzero : t.countP (fun y => y ≤ x) = 0 := by
        rw [List.countP_eq_zero]
        intro b hb
        have : a ≤ b := hs.1 b hb
        simp only [decide_eq_true_eq]
        exact fun hbx => hax (le_trans this hbx)
      rw [List.countP_cons_of_neg _ _ (by simpa using hax), hzero] at hc
      omega

/-- Entries at positions at or past the right insertion index of `x` are `> x`. -/
lemma lt_getElem_of_countP_le {l : List α} (hs : l.Sorted (· ≤ ·)) {x : α} {i : Nat}
    (h : i < l.length) (hc : l.countP (fun y => y ≤ x) ≤ i) : x < l[i] := by
  induction l generalizing i with
  | nil => simp at h
  | cons a t ih =>
    rw [List.sorted_cons] at hs
    by_cases hax : a ≤ x
    · rw [List.countP_cons_of_pos _ _ (by simpa using hax)] at hc
      cases i with
      | zero => omega
      | succ i' =>
        have hi' : i' < t.length := by simpa using h
        simpa using ih hs.2 hi' (by omega)
    · push_neg at hax
      cases i with
      | zero => simpa using hax
      | succ i' =>
        have hi' : i' < t.length := by simpa using h
        have hmem : t[i'] ∈ t := List.getElem_mem hi'
        have : a ≤ t[i'] := hs.1 _ hmem
        simpa using lt_of_lt_of_le hax this

/-- A member of a sorted list is at least the first element. -/
lemma sorted_getD_zero_le_mem {l : List α} (hs : l.Sorted (· ≤ ·)) {x : α}
    (hx : x ∈ l) : l.getD 0 0 ≤ x := by
  obtain ⟨i, hi, rfl⟩ := List.mem_iff_getElem.mp hx
  have h0 : 0 < l.length := by omega
  rw [getD_eq_getElem l 0 h0]
  rcases Nat.eq_zero_or_pos i with rfl | hpos
  · exact le_refl _
  · have := hs.rel_get_of_lt (a := ⟨0, h0⟩) (b := ⟨i, hi⟩) (by simpa using hpos)
    simpa using this

/-- A member of a sorted list is at most the last element. -/
lemma sorted_mem_le_getD_last {l : List α} (hs : l.Sorted (· ≤ ·)) {x : α}
    (hx : x ∈ l) : x ≤ l.getD (l.length - 1) 0 := by
  obtain ⟨i, hi, rfl⟩ := List.mem_iff_getElem.mp hx
  have h0 : 0 < l.length := by omega
  have hlast : l.length - 1 < l.length := by omega
  rw [getD_eq_getElem l 0 hlast]
  rcases Nat.eq_or_lt_of_le (show i ≤ l.length - 1 by omega) with heq | hlt
  · subst heq; exact le_refl _
  · have := hs.rel_get_of_lt (a := ⟨i, hi⟩) (b := ⟨l.length - 1, hlast⟩) (by simpa using hlt)
    simpa using this

/-- The first element of a nonempty sorted list is at most the last. -/
lemma sorted_getD_zero_le_last {l : List α} (hs : l.Sorted (· ≤ ·))
    (h0 : 0 < l.length) : l.getD 0 0 ≤ l.getD (l.length - 1) 0 := by
  have : l.getD 0 0 ∈ l := by
    rw [getD_eq_getElem l 0 h0]; exact List.getElem_mem h0
  exact sorted_mem_le_getD_last hs this

/-- In the strict interior of a sorted population the right insertion index is
at least 1 and at most `n - 1`. -/
lemma searchsortedRight_bounds {l : List α} (hs : l.Sorted (· ≤ ·))
    (hn : 2 ≤ l.length) {x : α} (hlo : l.getD 0 0 < x)
    (hhi : x < l.getD (l.length - 1) 0) :
    1 ≤ searchsortedRight l x ∧ searchsortedRight l x ≤ l.length - 1 := by
  have h0 : 0 < l.length := by omega
  constructor
  · have : 0 < l.countP (fun y => y ≤ x) := by
      rw [List.countP_pos_iff]
      refine ⟨l[0], List.getElem_mem h0, ?_⟩
      have := le_of_lt hlo
      rw [getD_eq_getElem l 0 h0] at this
      simpa using this
    simpa [searchsortedRight] using this
  · have hle : l.countP (fun y => y ≤ x) ≤ l.length := List.countP_le_length _
    have hne : l.countP (fun y => y ≤ x) ≠ l.length := by
      intro hcontra
      rw [List.countP_eq_length] at hcontra
      have hlast : l.length - 1 < l.length := by omega
      have := hcontra l[l.length - 1] (List.getElem_mem hlast)
      rw [getD_eq_getElem l 0 hlast] at hhi
      simp only [decide_eq_true_eq] at this
      exact absurd this (not_le.mpr hhi)
    have : searchsortedRight l x ≤ l.length := hle
    simp only [searchsortedRight] at *
    omega

/-- Interior-branch characterization of `excel_percentrank_exc`: for `x`
strictly between the first and last element of a sorted population of at least
2 elements, the code takes the interpolation branch, `sorted_arr[k] ≤ x <
sorted_arr[k+1]` holds for `k = idx - 1`, and the result is the interpolated
exclusive rank. -/
lemma percentrank_interior {l : List α} (hs : l.Sorted (· ≤ ·))
    (hn : 2 ≤ l.length) {x : α} (hlo : l.getD 0 0 < x)
    (hhi : x < l.getD (l.length - 1) 0) :
    l.getD (searchsortedRight l x - 1) 0 ≤ x ∧
    x < l.getD (searchsortedRight l x) 0 ∧
    excel_percentrank_exc l x =
      some ((((searchsortedRight l x - 1 : Nat) : α) +
        (x - l.getD (searchsortedRight l x - 1) 0) /
          (l.getD (searchsortedRight l x) 0 - l.getD (searchsortedRight l x - 1) 0)) /
        ((l.length : α) + 1)) := by
  obtain ⟨hidx1, hidxn⟩ := searchsortedRight_bounds hs hn hlo hhi
  have hkl : searchsortedRight l x - 1 < l.length := by omega
  have hil : searchsortedRight l x < l.length := by omega
  have hxk : l.getD (searchsortedRight l x - 1) 0 ≤ x := by
    rw [getD_eq_getElem l 0 hkl]
    exact getElem_le_of_lt_countP hs hkl (by simp only [searchsortedRight] at *; omega)
  have hxk1 : x < l.getD (searchsortedRight l x) 0 := by
    rw [getD_eq_getElem l 0 hil]
    exact lt_getElem_of_countP_le hs hil (le_refl _)
  refine ⟨hxk, hxk1, ?_⟩
  have h1 : ¬(l.length < 2) := by omega
  have h2 : ¬(x < l.getD 0 0 ∨ x > l.getD (l.length - 1) 0) := by
    push_neg
    exact ⟨le_of_lt hlo, le_of_lt hhi⟩
  have h3 : ¬(x = l.getD 0 0) := ne_of_gt hlo
  have h4 : ¬(x = l.getD (l.length - 1) 0) := ne_of_lt hhi
  have hk1 : searchsortedRight l x - 1 + 1 = searchsortedRight l x := by omega
  simp only [excel_percentrank_exc, if_neg h1, if_neg h2, if_neg h3, if_neg h4, hk1]

/-- Boundary branches of `excel_percentrank_exc` on a sorted population of at
least 2 elements: `x` equal to the first element yields `1/(n+1)`; `x` equal to
the last element — when the population is not constant — yields `n/(n+1)`. -/
lemma percentrank_boundary {l : List α} (hs : l.Sorted (· ≤ ·))
    (hn : 2 ≤ l.length) (x : α) :
    (x = l.getD 0 0 →
      excel_percentrank_exc l x = some (1 / ((l.length : α) + 1))) ∧
    (x = l.getD (l.length - 1) 0 → l.getD 0 0 < l.getD (l.length - 1) 0 →
      excel_percentrank_exc l x = some ((l.length : α) / ((l.length : α) + 1))) := by
  have h0 : 0 < l.length := by omega
  have hlole : l.getD 0 0 ≤ l.getD (l.length - 1) 0 := sorted_getD_zero_le_last hs h0
  have h1 : ¬(l.length < 2) := by omega
  constructor
  · intro hx
    have h2 : ¬(x < l.getD 0 0 ∨ x > l.getD (l.length - 1) 0) := by
      push_neg
      exact ⟨le_of_eq hx.symm, (le_of_eq hx).trans hlole⟩
    simp only [excel_percentrank_exc, if_neg h1, if_neg h2, if_pos hx]
  · intro hx hne
    have h2 : ¬(x < l.getD 0 0 ∨ x > l.getD (l.length - 1) 0) := by
      push_neg
      exact ⟨hlole.trans (le_of_eq hx.symm), le_of_eq hx⟩
    have h3 : ¬(x = l.getD 0 0) := by rw [hx]; exact ne_of_gt hne
    simp only [excel_percentrank_exc, if_neg h1, if_neg h2, if_neg h3, if_pos hx]

/-- `excel_percentrank_exc` is defined (`some`) whenever the population has at
least 2 elements and `x` lies inside its closed range. -/
lemma percentrank_isSome {l : List α} (hs : l.Sorted (· ≤ ·))
    (hn : 2 ≤ l.length) {x : α} (hlo : l.getD 0 0 ≤ x)
    (hhi : x ≤ l.getD (l.length - 1) 0) :
    ∃ p, excel_percentrank_exc l x = some p := by
  by_cases h3 : x = l.getD 0 0
  · exact ⟨_, (percentrank_boundary hs hn x).1 h3⟩
  · by_cases h4 : x = l.getD (l.length - 1) 0
    · have hlt : l.getD 0 0 < l.getD (l.length - 1) 0 := by
        rcases lt_or_eq_of_le hlo with h | h
        · exact lt_of_lt_of_le h hhi
        · exact absurd h.symm h3
      exact ⟨_, (percentrank_boundary hs hn x).2 h4 hlt⟩
    · have hlo' : l.getD 0 0 < x := lt_of_le_of_ne hlo (Ne.symm h3)
      have hhi' : x < l.getD (l.length - 1) 0 := lt_of_le_of_ne hhi h4
      exact ⟨_, (percentrank_interior hs hn hlo' hhi').2.2⟩

/-- `excel_percentrank_exc` returns NaN (`none`) exactly on short populations
and strictly out-of-range queries. -/
lemma percentrank_eq_none_iff (l : List α) (x : α) :
    excel_percentrank_exc l x = none ↔
      l.length < 2 ∨ x < l.getD 0 0 ∨ x > l.getD (l.length - 1) 0 := by
  by_cases h1 : l.length < 2
  · simp only [excel_percentrank_exc, if_pos h1]
    exact iff_of_true trivial (Or.inl h1)
  · by_cases h2 : x < l.getD 0 0 ∨ x > l.getD (l.length - 1) 0
    · simp only [excel_percentrank_exc, if_neg h1, if_pos h2]
      exact iff_of_true trivial (Or.inr h2)
    · have hsome : excel_percentrank_exc l x ≠ none := by
        by_cases h3 : x = l.getD 0 0
        · simp only [excel_percentrank_exc, if_neg h1, if_neg h2, if_pos h3]
          exact Option.some_ne_none _
        · by_cases h4 : x = l.getD (l.length - 1) 0
          · simp only [excel_percentrank_exc, if_neg h1, if_neg h2, if_neg h3, if_pos h4]
            exact Option.some_ne_none _
          · simp only [excel_percentrank_exc, if_neg h1, if_neg h2, if_neg h3, if_neg h4]
            exact Option.some_ne_none _
      refine iff_of_false hsome ?_
      rintro (h | h)
      exacts [h1 h, h2 h]

end RankLemmas

/-! ### Helper lemmas: list sums, variance, the standardizer -/

lemma sum_map_sub_div (l : List ℝ) (mu sigma : ℝ) :
    (l.map (fun v => (v - mu) / sigma)).sum = (l.sum - l.length * mu) / sigma := by
  induction l with
  | nil => simp
  | cons a t ih =>
    simp only [List.map_cons, List.sum_cons, List.length_cons, ih]
    push_cast
    ring

lemma sum_map_sq_div (l : List ℝ) (mu sigma : ℝ) :
    (l.map (fun v => ((v - mu) / sigma) ^ 2)).sum =
      (l.map (fun v => (v - mu) ^ 2)).sum / sigma ^ 2 := by
  induction l with
  | nil => simp
  | cons a t ih =>
    simp only [List.map_cons, List.sum_cons, ih]
    ring

lemma sampleVar_nonneg {l : List ℝ} (hn : 2 ≤ l.length) : 0 ≤ sampleVar l := by
  have hs : 0 ≤ (l.map (fun v => (v - sampleMean l) ^ 2)).sum :=
    List.sum_nonneg (by
      intro y hy
      obtain ⟨v, _, rfl⟩ := List.mem_map.mp hy
      positivity)
  have hd : (0 : ℝ) ≤ (l.length : ℝ) - 1 := by
    have : (2 : ℝ) ≤ (l.length : ℝ) := by exact_mod_cast hn
    linarith
  exact div_nonneg hs hd

/-- Zero sample variance forces every entry to equal the mean (the divisor
`n - 1` is positive when `n ≥ 2`, and a sum of squares vanishes only if every
square does). -/
lemma sampleVar_eq_zero_imp {l : List ℝ} (hn : 2 ≤ l.length)
    (h : sampleVar l = 0) : ∀ v ∈ l, v = sampleMean l := by
  have hd : (0 : ℝ) < (l.length : ℝ) - 1 := by
    have : (2 : ℝ) ≤ (l.length : ℝ) := by exact_mod_cast hn
    linarith
  have hsum : (l.map (fun v => (v - sampleMean l) ^ 2)).sum = 0 := by
    have := h
    unfold sampleVar at this
    field_simp at this
    exact this
  intro v hv
  have hmem : (v - sampleMean l) ^ 2 ∈ l.map (fun v => (v - sampleMean l) ^ 2) :=
    List.mem_map.mpr ⟨v, hv, rfl⟩
  have hle : (v - sampleMean l) ^ 2 ≤ 0 := by
    calc (v - sampleMean l) ^ 2
        ≤ (l.map (fun v => (v - sampleMean l) ^ 2)).sum :=
          List.single_le_sum (by
            intro y hy
            obtain ⟨w, _, rfl⟩ := List.mem_map.mp hy
            positivity) _ hmem
      _ = 0 := hsum
  have : (v - sampleMean l) ^ 2 = 0 := le_antisymm hle (by positivity)
  have := pow_eq_zero_iff (n := 2) (by norm_num) |>.mp this
  linarith [sub_eq_zero.mp this]

lemma definedVals_map_optionMap (col : List (Option ℝ)) (g : ℝ → ℝ) :
    definedVals (col.map (Option.map g)) = (definedVals col).map g := by
  induction col with
  | nil => rfl
  | cons c t ih =>
    cases c <;> simp [definedVals, List.filterMap_cons] at ih ⊢ <;> exact ih

lemma definedVals_map_none (col : List (Option ℝ)) :
    definedVals (col.map (fun _ => (none : Option ℝ))) = [] := by
  induction col with
  | nil => rfl
  | cons c t ih => simpa [definedVals, List.filterMap_cons] using ih

/-- Branch equation for `standardizeColumn` when mean and deviation are
defined. -/
lemma standardizeColumn_eq_branch (col : List (Option ℝ)) (mu sigma : ℝ)
    (hm : nanmean col = some mu) (hsd : nanstd col = some sigma) :
    standardizeColumn col =
      if sigma = 0 then col.map (fun _ => none)
      else col.map (fun c => c.map (fun v => (v - mu) / sigma)) := by
  rw [standardizeColumn, hm, hsd]

/-- Branch equation for `standardizeColumn` when the deviation is NaN. -/
lemma standardizeColumn_eq_of_nanstd_none (col : List (Option ℝ))
    (hsd : nanstd col = none) :
    standardizeColumn col = col.map (fun _ => none) := by
  rcases hm : nanmean col with _ | mu <;> rw [standardizeColumn, hm, hsd]

/-- In the non-degenerate case (`n ≥ 2` defined entries, nonzero sample
variance) the standardizer maps every cell through
`(v - mean) / sqrt (sampleVar)` and the moments are as named. -/
lemma standardizeColumn_nondegenerate (col : List (Option ℝ))
    (hn : 2 ≤ (definedVals col).length)
    (hv : sampleVar (definedVals col) ≠ 0) :
    nanmean col = some (sampleMean (definedVals col)) ∧
    nanstd col = some (Real.sqrt (sampleVar (definedVals col))) ∧
    standardizeColumn col =
      col.map (Option.map (fun v =>
        (v - sampleMean (definedVals col)) / Real.sqrt (sampleVar (definedVals col)))) := by
  have h0 : ¬((definedVals col).length = 0) := by omega
  have h2 : ¬((definedVals col).length < 2) := by omega
  have hm : nanmean col = some (sampleMean (definedVals col)) := by
    simp [nanmean, h0]
  have hsd : nanstd col = some (Real.sqrt (sampleVar (definedVals col))) := by
    simp [nanstd, h2]
  have hpos : 0 < sampleVar (definedVals col) :=
    lt_of_le_of_ne (sampleVar_nonneg hn) (Ne.symm hv)
  have hsne : Real.sqrt (sampleVar (definedVals col)) ≠ 0 := by
    rw [Ne, Real.sqrt_eq_zero']
    push_neg
    exact hpos
  refine ⟨hm, hsd, ?_⟩
  rw [standardizeColumn_eq_branch col _ _ hm hsd, if_neg hsne]

/-- In the degenerate case (fewer than 2 defined entries, or zero standard
deviation) every output cell of the standardizer is undefined. -/
lemma standardizeColumn_degenerate (col : List (Option ℝ))
    (h : (definedVals col).length < 2 ∨ nanstd col = some 0) :
    ∀ c ∈ standardizeColumn col, c = none := by
  intro c hc
  rcases h with h | h
  · have hsd : nanstd col = none := by simp [nanstd, h]
    rw [standardizeColumn_eq_of_nanstd_none col hsd] at hc
    obtain ⟨_, _, rfl⟩ := List.mem_map.mp hc
    rfl
  · have h2 : ¬((definedVals col).length < 2) := by
      intro hlt
      simp [nanstd, hlt] at h
    have h0 : ¬((definedVals col).length = 0) := by omega
    have hmean : nanmean col = some (sampleMean (definedVals col)) := by
      simp [nanmean, h0]
    rw [standardizeColumn_eq_branch col _ _ hmean h, if_pos rfl] at hc
    obtain ⟨_, _, rfl⟩ := List.mem_map.mp hc
    rfl

/-- The CLI standardizer (`(vals - mu) / sigma` under NaN propagation) computes
the same column as the streamlit standardizer with its explicit degenerate
guard: when `sigma = 0` every defined deviation `v - mu` is zero, so numpy's
`0/0 = NaN` makes the whole column NaN there too. -/
lemma standardizeColumnCLI_eq (col : List (Option ℝ)) :
    standardizeColumnCLI col = standardizeColumn col := by
  rcases hsd : nanstd col with _ | sigma
  · have h2 : (definedVals col).length < 2 := by
      by_contra h2
      simp [nanstd, h2] at hsd
    rw [standardizeColumnCLI, standardizeColumn_eq_of_nanstd_none col hsd]
    exact List.map_congr_left (fun c _ => by cases c <;> simp [nansub, nandiv, hsd])
  · have h2 : ¬((definedVals col).length < 2) := by
      intro hlt
      simp [nanstd, hlt] at hsd
    have h0 : ¬((definedVals col).length = 0) := by omega
    have hmean : nanmean col = some (sampleMean (definedVals col)) := by
      simp [nanmean, h0]
    have hsigma : sigma = Real.sqrt (sampleVar (definedVals col)) := by
      simp [nanstd, h2] at hsd
      exact hsd.symm
    by_cases hz : sigma = 0
    · rw [standardizeColumnCLI, standardizeColumn_eq_branch col _ _ hmean hsd, if_pos hz]
      refine List.map_congr_left (fun c hc => ?_)
      cases c with
      | none => simp [nansub, nandiv, hsd]
      | some v =>
        have hvar : sampleVar (definedVals col) = 0 := by
          have : Real.sqrt (sampleVar (definedVals col)) = 0 := by rw [← hsigma, hz]
          rw [Real.sqrt_eq_zero'] at this
          exact le_antisymm this (sampleVar_nonneg (by omega))
        have hvm : v = sampleMean (definedVals col) := by
          refine sampleVar_eq_zero_imp (by omega) hvar v ?_
          exact List.mem_filterMap.mpr ⟨some v, hc, rfl⟩
        simp [nansub, nandiv, hmean, hsd, hz, hvm]
    · rw [standardizeColumnCLI, standardizeColumn_eq_branch col _ _ hmean hsd, if_neg hz]
      refine List.map_congr_left (fun c _ => ?_)
      cases c <;> simp [nansub, nandiv, hmean, hsd, hz]

/-- The CLI transform (`excel_percentrank_exc` result pushed through the affine
map under NaN propagation) equals the streamlit transform with its explicit
`len < 2` guard: the rank function already returns NaN on short populations. -/
lemma transform_excCLI_eq (sorted_flat : List ℝ) (val : Option ℝ) :
    transform_excCLI sorted_flat val = transform_exc sorted_flat val := by
  cases val with
  | none => rfl
  | some v =>
    by_cases h : sorted_flat.length < 2
    · simp [transform_excCLI, transform_exc, h, excel_percentrank_exc]
    · simp [transform_excCLI, transform_exc, h]

/-- The whole CLI pipeline computes the same pair of output frames as
`process_dataframe`. -/
lemma runCLI_eq (f : InputFrame) : runCLI f = process_dataframe f := by
  have h1 : standardizeColumnCLI = standardizeColumn := funext standardizeColumnCLI_eq
  have h2 : transform_excCLI = transform_exc :=
    funext (fun s => funext (fun v => transform_excCLI_eq s v))
  rw [runCLI, process_dataframe, h1, h2, standardizeAll]

/-! ### Helper lemmas: the pooled population and cell access -/

lemma pooled_sorted (cols : List (List (Option ℝ))) : (pooled cols).Sorted (· ≤ ·) :=
  List.sorted_mergeSort' (definedCells cols)

lemma pooled_perm (cols : List (List (Option ℝ))) :
    List.Perm (pooled cols) (definedCells cols) :=
  List.mergeSort_perm _ _

lemma mem_pooled {cols : List (List (Option ℝ))} {x : ℝ} :
    x ∈ pooled cols ↔ x ∈ definedCells cols :=
  (pooled_perm cols).mem_iff

/-- Sorting is invariant under permutation of the input: the row-major flatten
of the code and the column-major flatten of the embedding sort to the same
pooled population. -/
lemma mergeSort_congr_perm (l₁ l₂ : List ℝ) (h : List.Perm l₁ l₂) :
    l₁.mergeSort (fun a b => a ≤ b) = l₂.mergeSort (fun a b => a ≤ b) :=
  List.eq_of_perm_of_sorted
    ((List.mergeSort_perm _ _).trans (h.trans (List.mergeSort_perm _ _).symm))
    (List.sorted_mergeSort' _) (List.sorted_mergeSort' _)

/-- A defined cell of the standardized matrix is a member of the pooled
population. -/
lemma mem_definedCells_of_cellAt {m : List (List (Option ℝ))} {i j : Nat} {v : ℝ}
    (h : cellAt m i j = some (some v)) : v ∈ definedCells m := by
  unfold cellAt at h
  rcases hcol : m.get? i with _ | col
  · rw [hcol] at h; simp at h
  · rw [hcol] at h
    simp only [Option.some_bind] at h
    have hcm : col ∈ m := List.get?_mem hcol
    have hvm : some v ∈ col := List.get?_mem h
    have hvd : v ∈ definedVals col := List.mem_filterMap.mpr ⟨some v, hvm, rfl⟩
    exact List.mem_flatten_of_mem (List.mem_map.mpr ⟨col, hcm, rfl⟩) hvd

lemma cellAt_map (m : List (List (Option ℝ))) (g : Option ℝ → Option ℝ) (i j : Nat) :
    cellAt (m.map (fun col => col.map g)) i j = (cellAt m i j).map g := by
  unfold cellAt
  rw [List.get?_map]
  rcases m.get? i with _ | col <;> simp [List.get?_map]

/-- Branch equation for `standardizeColumn` when the mean is NaN. -/
lemma standardizeColumn_eq_of_nanmean_none (col : List (Option ℝ))
    (hm : nanmean col = none) :
    standardizeColumn col = col.map (fun _ => none) := by
  rcases hsd : nanstd col with _ | sigma <;> rw [standardizeColumn, hm, hsd]

/-- The standardizer never changes the length of a column (no dropped rows). -/
lemma standardizeColumn_length (col : List (Option ℝ)) :
    (standardizeColumn col).length = col.length := by
  rcases hsd : nanstd col with _ | sigma
  · rw [standardizeColumn_eq_of_nanstd_none col hsd, List.length_map]
  · rcases hm : nanmean col with _ | mu
    · rw [standardizeColumn_eq_of_nanmean_none col hm, List.length_map]
    · rw [standardizeColumn_eq_branch col mu sigma hm hsd]
      by_cases hz : sigma = 0 <;> simp [hz]

/-- The standardizer keeps a NaN cell NaN at the same position. -/
lemma standardizeColumn_get?_none (col : List (Option ℝ)) (j : Nat)
    (h : col.get? j = some none) :
    (standardizeColumn col).get? j = some none := by
  rcases hsd : nanstd col with _ | sigma
  · rw [standardizeColumn_eq_of_nanstd_none col hsd, List.get?_map, h]; rfl
  · rcases hm : nanmean col with _ | mu
    · rw [standardizeColumn_eq_of_nanmean_none col hm, List.get?_map, h]; rfl
    · rw [standardizeColumn_eq_branch col mu sigma hm hsd]
      by_cases hz : sigma = 0
      · rw [if_pos hz, List.get?_map, h]; rfl
      · rw [if_neg hz, List.get?_map, h]; rfl

/-! ### The claims -/

/-- **C2** (amended): on an ascending sorted population of at least 2 elements,
`excel_percentrank_exc` returns `(k + fraction)/(n+1)` for `x` strictly between
the population extremes, where `k` is the right-insertion position minus one
(so `population[k] ≤ x < population[k+1]`, ties landing just past the last
equal element) and `fraction = (x - population[k]) / (population[k+1] -
population[k])`; for `x` equal to the minimum it returns `1/(n+1)`; and for `x`
equal to the maximum it returns `n/(n+1)` *provided the maximum is strictly
greater than the minimum* — for a constant population the minimum branch wins,
see the counterexample. -/
theorem spec_C2_amended {α : Type} [LinearOrderedField α] (l : List α) (x : α)
    (hs : l.Sorted (· ≤ ·)) (hn : 2 ≤ l.length) :
    (l.getD 0 0 < x → x < l.getD (l.length - 1) 0 →
      l.getD (searchsortedRight l x - 1) 0 ≤ x ∧
      x < l.getD (searchsortedRight l x - 1 + 1) 0 ∧
      excel_percentrank_exc l x =
        some ((((searchsortedRight l x - 1 : Nat) : α) +
          (x - l.getD (searchsortedRight l x - 1) 0) /
            (l.getD (searchsortedRight l x - 1 + 1) 0 -
              l.getD (searchsortedRight l x - 1) 0)) /
          ((l.length : α) + 1))) ∧
    (x = l.getD 0 0 →
      excel_percentrank_exc l x = some (1 / ((l.length : α) + 1))) ∧
    (x = l.getD (l.length - 1) 0 → l.getD 0 0 < l.getD (l.length - 1) 0 →
      excel_percentrank_exc l x =
        some ((l.length : α) / ((l.length : α) + 1))) := by
  refine ⟨?_, (percentrank_boundary hs hn x).1, (percentrank_boundary hs hn x).2⟩
  intro hlo hhi
  obtain ⟨h1, _⟩ := searchsortedRight_bounds hs hn hlo hhi
  have hk : searchsortedRight l x - 1 + 1 = searchsortedRight l x := by omega
  rw [hk]
  exact percentrank_interior hs hn hlo hhi

/-- **C2** counterexample: for the constant sorted population `[0, 0]` the
query `x = 0` equals the population maximum, yet the function returns
`1/(n+1) = 1/3`, not `n/(n+1) = 2/3` as the claim's maximum clause demands. -/
theorem spec_C2_counterexample :
    ([(0 : ℚ), 0].Sorted (· ≤ ·)) ∧
    (0 : ℚ) = [(0 : ℚ), 0].getD ([(0 : ℚ), 0].length - 1) 0 ∧
    excel_percentrank_exc [(0 : ℚ), 0] 0 = some (1 / 3) ∧
    ¬ excel_percentrank_exc [(0 : ℚ), 0] 0 =
        some (([(0 : ℚ), 0].length : ℚ) / (([(0 : ℚ), 0].length : ℚ) + 1)) := by
  refine ⟨?_, rfl, ?_, ?_⟩
  · simp [List.sorted_cons]
  · norm_num [excel_percentrank_exc]
  · norm_num [excel_percentrank_exc]

/-- **C2** witness: the interpolation clause at the spec's own test point
`rank(0.5)` on `[-2, -1, 0, 1, 2]` (right-insertion index 3, `k = 2`,
`fraction = 1/2`, rank `(2 + 1/2)/6`). -/
theorem spec_C2_witness :
    ([(-2 : ℚ), -1, 0, 1, 2].Sorted (· ≤ ·)) ∧
    2 ≤ [(-2 : ℚ), -1, 0, 1, 2].length ∧
    excel_percentrank_exc [(-2 : ℚ), -1, 0, 1, 2] (1 / 2) =
      some ((2 + (1 / 2 - 0) / (1 - 0)) / 6) := by
  have hs : ([(-2 : ℚ), -1, 0, 1, 2].Sorted (· ≤ ·)) := by
    norm_num [List.sorted_cons]
  have hn : 2 ≤ [(-2 : ℚ), -1, 0, 1, 2].length := by norm_num
  refine ⟨hs, hn, ?_⟩
  have h := (spec_C2_amended [(-2 : ℚ), -1, 0, 1, 2] (1 / 2) hs hn).1
    (by norm_num) (by norm_num)
  rw [h.2.2]
  norm_num [searchsortedRight, List.countP, List.countP.go]

/-- **C3**: on a sorted population, `excel_percentrank_exc` is undefined
(`none`) exactly when the population has fewer than 2 elements, or the query is
strictly below the population minimum (its first element), or strictly above
the population maximum (its last element). -/
theorem spec_C3 {α : Type} [LinearOrderedField α] (l : List α) (x : α)
    (hs : l.Sorted (· ≤ ·)) :
    excel_percentrank_exc l x = none ↔
      l.length < 2 ∨ x < l.getD 0 0 ∨ x > l.getD (l.length - 1) 0 :=
  percentrank_eq_none_iff l x

/-- **C3** witness: the spec's own out-of-range cases — `rank(3)` and
`rank(-3)` against `[-2, -1, 0, 1, 2]` are undefined. -/
theorem spec_C3_witness :
    ([(-2 : ℚ), -1, 0, 1, 2].Sorted (· ≤ ·)) ∧
    excel_percentrank_exc [(-2 : ℚ), -1, 0, 1, 2] 3 = none ∧
    excel_percentrank_exc [(-2 : ℚ), -1, 0, 1, 2] (-3) = none := by
  have hs : ([(-2 : ℚ), -1, 0, 1, 2].Sorted (· ≤ ·)) := by
    norm_num [List.sorted_cons]
  exact ⟨hs, (spec_C3 _ 3 hs).mpr (by norm_num),
    (spec_C3 _ (-3) hs).mpr (by norm_num)⟩

/-- **C10** (implicit safety): whenever the interpolation branch of
`excel_percentrank_exc` is reached (sorted population, `n ≥ 2`, query strictly
between the extremes), the insertion index `idx` satisfies `1 ≤ idx` (so the
Python `k = idx - 1` is a genuine non-negative index) and `k + 1 ≤ n - 1`, so
both array accesses are in bounds; and `sorted_arr[k+1] - sorted_arr[k]` is
strictly positive, so the interpolation never divides by zero, duplicates
notwithstanding. -/
theorem spec_C10 {α : Type} [LinearOrderedField α] (l : List α) (x : α)
    (hs : l.Sorted (· ≤ ·)) (hn : 2 ≤ l.length)
    (hlo : l.getD 0 0 < x) (hhi : x < l.getD (l.length - 1) 0) :
    1 ≤ searchsortedRight l x ∧
    searchsortedRight l x - 1 + 1 ≤ l.length - 1 ∧
    l.getD (searchsortedRight l x - 1) 0 ≤ x ∧
    x < l.getD (searchsortedRight l x - 1 + 1) 0 ∧
    0 < l.getD (searchsortedRight l x - 1 + 1) 0 -
        l.getD (searchsortedRight l x - 1) 0 := by
  obtain ⟨h1, h2⟩ := searchsortedRight_bounds hs hn hlo hhi
  have hk : searchsortedRight l x - 1 + 1 = searchsortedRight l x := by omega
  obtain ⟨ha, hb, _⟩ := percentrank_interior hs hn hlo hhi
  rw [hk]
  exact ⟨h1, by omega, ha, hb, by linarith⟩

/-- **C10** witness: the interior query `x = 1/2` against `[-2, -1, 0, 1, 2]`
(a population that could equally contain duplicates away from `x`). -/
theorem spec_C10_witness :
    (([(-2 : ℚ), -1, 0, 1, 2].Sorted (· ≤ ·)) ∧
      2 ≤ [(-2 : ℚ), -1, 0, 1, 2].length ∧
      [(-2 : ℚ), -1, 0, 1, 2].getD 0 0 < 1 / 2 ∧
      (1 / 2 : ℚ) < [(-2 : ℚ), -1, 0, 1, 2].getD ([(-2 : ℚ), -1, 0, 1, 2].length - 1) 0) ∧
    (1 ≤ searchsortedRight [(-2 : ℚ), -1, 0, 1, 2] (1 / 2) ∧
      searchsortedRight [(-2 : ℚ), -1, 0, 1, 2] (1 / 2) - 1 + 1 ≤
        [(-2 : ℚ), -1, 0, 1, 2].length - 1 ∧
      [(-2 : ℚ), -1, 0, 1, 2].getD
          (searchsortedRight [(-2 : ℚ), -1, 0, 1, 2] (1 / 2) - 1) 0 ≤ 1 / 2 ∧
      (1 / 2 : ℚ) < [(-2 : ℚ), -1, 0, 1, 2].getD
          (searchsortedRight [(-2 : ℚ), -1, 0, 1, 2] (1 / 2) - 1 + 1) 0 ∧
      0 < [(-2 : ℚ), -1, 0, 1, 2].getD
            (searchsortedRight [(-2 : ℚ), -1, 0, 1, 2] (1 / 2) - 1 + 1) 0 -
          [(-2 : ℚ), -1, 0, 1, 2].getD
            (searchsortedRight [(-2 : ℚ), -1, 0, 1, 2] (1 / 2) - 1) 0) := by
  have hs : ([(-2 : ℚ), -1, 0, 1, 2].Sorted (· ≤ ·)) := by
    norm_num [List.sorted_cons]
  have hn : 2 ≤ [(-2 : ℚ), -1, 0, 1, 2].length := by norm_num
  have hlo : [(-2 : ℚ), -1, 0, 1, 2].getD 0 0 < 1 / 2 := by norm_num
  have hhi : (1 / 2 : ℚ) <
      [(-2 : ℚ), -1, 0, 1, 2].getD ([(-2 : ℚ), -1, 0, 1, 2].length - 1) 0 := by
    norm_num
  exact ⟨⟨hs, hn, hlo, hhi⟩, spec_C10 _ _ hs hn hlo hhi⟩

/-- Definitional unfolding of `sampleVar`, applied to one chosen instance. -/
lemma sampleVar_eq (l : List ℝ) :
    sampleVar l = (l.map (fun v => (v - sampleMean l) ^ 2)).sum / ((l.length : ℝ) - 1) :=
  rfl

/-- The standardized values sum to zero, hence have mean zero. -/
lemma standardized_mean_zero (d : List ℝ) (hn : 2 ≤ d.length) (s : ℝ) :
    sampleMean (d.map (fun v => (v - sampleMean d) / s)) = 0 := by
  have hd0 : (d.length : ℝ) ≠ 0 := by
    have : (2 : ℝ) ≤ (d.length : ℝ) := by exact_mod_cast hn
    linarith
  unfold sampleMean
  rw [List.length_map, sum_map_sub_div]
  have hz : d.sum - (d.length : ℝ) * (d.sum / (d.length : ℝ)) = 0 := by
    field_simp
  rw [hz, zero_div, zero_div]

/-- The standardized values have sample variance one. -/
lemma standardized_var_one (d : List ℝ) (hn : 2 ≤ d.length)
    (hv : sampleVar d ≠ 0) :
    sampleVar (d.map (fun v => (v - sampleMean d) / Real.sqrt (sampleVar d))) = 1 := by
  have hn1 : ((d.length : ℝ) - 1) ≠ 0 := by
    have : (2 : ℝ) ≤ (d.length : ℝ) := by exact_mod_cast hn
    linarith
  have hmean0 := standardized_mean_zero d hn (Real.sqrt (sampleVar d))
  rw [sampleVar_eq (d.map (fun v => (v - sampleMean d) / Real.sqrt (sampleVar d)))]
  rw [hmean0]
  simp only [sub_zero, List.map_map, List.length_map]
  rw [show ((fun v => v ^ 2) ∘ fun v => (v - sampleMean d) / Real.sqrt (sampleVar d)) =
      fun v => ((v - sampleMean d) / Real.sqrt (sampleVar d)) ^ 2 from rfl]
  rw [sum_map_sq_div, Real.sq_sqrt (sampleVar_nonneg hn)]
  have hS : (d.map (fun v => (v - sampleMean d) ^ 2)).sum =
      sampleVar d * ((d.length : ℝ) - 1) := by
    rw [sampleVar_eq d]
    field_simp
  rw [hS]
  field_simp

/-- **C4**: a degenerate column — fewer than 2 defined entries (equivalently a
NaN sample standard deviation), or zero sample standard deviation — is
standardized to an all-undefined column, by both the streamlit standardizer and
the CLI standardizer. -/
theorem spec_C4 (col : List (Option ℝ))
    (h : (definedVals col).length < 2 ∨ nanstd col = some 0) :
    (∀ c ∈ standardizeColumn col, c = none) ∧
    (∀ c ∈ standardizeColumnCLI col, c = none) := by
  refine ⟨standardizeColumn_degenerate col h, ?_⟩
  rw [standardizeColumnCLI_eq]
  exact standardizeColumn_degenerate col h

/-- **C4** witness: the spec's own degenerate column, five entries of `3.0`
(zero sample standard deviation), standardizes to all-undefined. -/
theorem spec_C4_witness :
    ((definedVals [some (3 : ℝ), some 3, some 3, some 3, some 3]).length < 2 ∨
      nanstd [some (3 : ℝ), some 3, some 3, some 3, some 3] = some 0) ∧
    (∀ c ∈ standardizeColumn [some (3 : ℝ), some 3, some 3, some 3, some 3], c = none) ∧
    (∀ c ∈ standardizeColumnCLI [some (3 : ℝ), some 3, some 3, some 3, some 3], c = none) := by
  have hvar : sampleVar [(3 : ℝ), 3, 3, 3, 3] = 0 := by
    norm_num [sampleVar, sampleMean]
  have hstd : nanstd [some (3 : ℝ), some 3, some 3, some 3, some 3] = some 0 := by
    simp [nanstd, definedVals, hvar]
  have h : (definedVals [some (3 : ℝ), some 3, some 3, some 3, some 3]).length < 2 ∨
      nanstd [some (3 : ℝ), some 3, some 3, some 3, some 3] = some 0 := Or.inr hstd
  exact ⟨h, spec_C4 _ h⟩

/-- **C5**: a non-degenerate column (at least 2 defined entries, nonzero sample
variance, equivalently nonzero sample standard deviation) is standardized by
mapping every defined entry `v` to `(v - mean) / stdev` — `stdev` the square
root of the `ddof=1` sample variance of the defined entries — leaving `none`
entries `none`; consequently the defined standardized values have mean 0 and
sample variance 1. -/
theorem spec_C5 (col : List (Option ℝ))
    (hn : 2 ≤ (definedVals col).length)
    (hv : sampleVar (definedVals col) ≠ 0) :
    standardizeColumn col =
      col.map (Option.map (fun v =>
        (v - sampleMean (definedVals col)) / Real.sqrt (sampleVar (definedVals col)))) ∧
    sampleMean (definedVals (standardizeColumn col)) = 0 ∧
    sampleVar (definedVals (standardizeColumn col)) = 1 := by
  obtain ⟨hm, hsd, heq⟩ := standardizeColumn_nondegenerate col hn hv
  have hzvals : definedVals (standardizeColumn col) =
      (definedVals col).map (fun v =>
        (v - sampleMean (definedVals col)) / Real.sqrt (sampleVar (definedVals col))) := by
    rw [heq, definedVals_map_optionMap]
  refine ⟨heq, ?_, ?_⟩
  · rw [hzvals]
    exact standardized_mean_zero _ hn _
  · rw [hzvals]
    exact standardized_var_one _ hn hv

/-- **C5** witness: the column `[0, 2, 4]` (mean 2, sample variance 4, sample
standard deviation 2) standardizes to `[-1, 0, 1]`: mean 0, sample variance 1. -/
theorem spec_C5_witness :
    (2 ≤ (definedVals [some (0 : ℝ), some 2, some 4]).length ∧
      sampleVar (definedVals [some (0 : ℝ), some 2, some 4]) ≠ 0) ∧
    sampleMean (definedVals (standardizeColumn [some (0 : ℝ), some 2, some 4])) = 0 ∧
    sampleVar (definedVals (standardizeColumn [some (0 : ℝ), some 2, some 4])) = 1 := by
  have hd : definedVals [some (0 : ℝ), some 2, some 4] = [0, 2, 4] := rfl
  have h1 : 2 ≤ (definedVals [some (0 : ℝ), some 2, some 4]).length := by
    rw [hd]; norm_num
  have h2 : sampleVar (definedVals [some (0 : ℝ), some 2, some 4]) ≠ 0 := by
    rw [hd]; norm_num [sampleVar, sampleMean]
  exact ⟨⟨h1, h2⟩, (spec_C5 _ h1 h2).2⟩

/-- **C1**: in the transformed output, a cell whose standardized value is NaN
is NaN; any cell is NaN when the pooled population has fewer than 2 elements;
and a cell with a defined standardized value `v` (when the pooled population —
the sorted list of all defined standardized cells — has at least 2 elements)
equals `(rank * 100 - 50.5) / 34` where `rank` is the defined exclusive
percentile rank of `v` in the pooled population.  The CLI pipeline computes the
identical outputs. -/
theorem spec_C1 (f : InputFrame) (i j : Nat) :
    (cellAt (standardizeAll f.betas) i j = some none →
      cellAt (process_dataframe f).2.data i j = some none) ∧
    ((pooled (standardizeAll f.betas)).length < 2 →
      ∀ w, cellAt (standardizeAll f.betas) i j = some w →
        cellAt (process_dataframe f).2.data i j = some none) ∧
    (∀ v : ℝ, cellAt (standardizeAll f.betas) i j = some (some v) →
      2 ≤ (pooled (standardizeAll f.betas)).length →
      ∃ p, excel_percentrank_exc (pooled (standardizeAll f.betas)) v = some p ∧
        cellAt (process_dataframe f).2.data i j =
          some (some ((p * 100 - 50.5) / 34))) ∧
    runCLI f = process_dataframe f := by
  have ht : (process_dataframe f).2.data =
      (standardizeAll f.betas).map
        (fun col => col.map (transform_exc (pooled (standardizeAll f.betas)))) := rfl
  have hmap := cellAt_map (standardizeAll f.betas)
      (transform_exc (pooled (standardizeAll f.betas))) i j
  refine ⟨?_, ?_, ?_, runCLI_eq f⟩
  · intro h
    rw [ht, hmap, h]
    rfl
  · intro hlen w h
    rw [ht, hmap, h]
    cases w with
    | none => rfl
    | some v => simp [transform_exc, if_pos hlen]
  · intro v h hlen
    have hmem : v ∈ pooled (standardizeAll f.betas) :=
      mem_pooled.mpr (mem_definedCells_of_cellAt h)
    have hsor := pooled_sorted (standardizeAll f.betas)
    have hlo := sorted_getD_zero_le_mem hsor hmem
    have hhi := sorted_mem_le_getD_last hsor hmem
    obtain ⟨p, hp⟩ := percentrank_isSome hsor hlen hlo hhi
    have hnl : ¬((pooled (standardizeAll f.betas)).length < 2) := by omega
    refine ⟨p, hp, ?_⟩
    rw [ht, hmap, h]
    simp [transform_exc, hnl, hp, rescale]

/-- **C1** witness: a one-column matrix `[0, 2, 4]`, standardized to
`[-1, 0, 1]` (pooled population of 3 elements); the transformed cell for
standardized value `-1` carries the rescaled rank. -/
theorem spec_C1_witness :
    (cellAt (standardizeAll (InputFrame.mk [["A", "B", "C"], ["a", "b", "c"]]
        [[some (0 : ℝ), some 2, some 4]]).betas) 0 0 = some (some (-1)) ∧
      2 ≤ (pooled (standardizeAll (InputFrame.mk [["A", "B", "C"], ["a", "b", "c"]]
        [[some (0 : ℝ), some 2, some 4]]).betas)).length) ∧
    (∃ p, excel_percentrank_exc (pooled (standardizeAll
        (InputFrame.mk [["A", "B", "C"], ["a", "b", "c"]]
          [[some (0 : ℝ), some 2, some 4]]).betas)) (-1) = some p ∧
      cellAt (process_dataframe (InputFrame.mk [["A", "B", "C"], ["a", "b", "c"]]
        [[some (0 : ℝ), some 2, some 4]])).2.data 0 0 =
          some (some ((p * 100 - 50.5) / 34))) := by
  have hd : definedVals [some (0 : ℝ), some 2, some 4] = [0, 2, 4] := rfl
  have hm : nanmean [some (0 : ℝ), some 2, some 4] = some 2 := by
    norm_num [nanmean, hd, sampleMean]
  have hvar : sampleVar [(0 : ℝ), 2, 4] = 4 := by
    norm_num [sampleVar, sampleMean]
  have h4 : Real.sqrt 4 = 2 := by
    rw [show (4 : ℝ) = 2 ^ 2 by norm_num, Real.sqrt_sq (by norm_num : (0 : ℝ) ≤ 2)]
  have hsd : nanstd [some (0 : ℝ), some 2, some 4] = some 2 := by
    simp [nanstd, hd, hvar, h4]
  have hcol : standardizeColumn [some (0 : ℝ), some 2, some 4] =
      [some (-1), some 0, some 1] := by
    rw [standardizeColumn_eq_branch _ 2 2 hm hsd,
      if_neg (by norm_num : (2 : ℝ) ≠ 0)]
    norm_num
  have hz : standardizeAll [[some (0 : ℝ), some 2, some 4]] =
      [[some (-1 : ℝ), some 0, some 1]] := by
    simp [standardizeAll, hcol]
  have hcell : cellAt (standardizeAll [[some (0 : ℝ), some 2, some 4]]) 0 0 =
      some (some (-1)) := by
    rw [hz]; rfl
  have hpool : pooled (standardizeAll [[some (0 : ℝ), some 2, some 4]]) =
      [-1, 0, 1] := by
    rw [hz]
    have hdc : definedCells [[some (-1 : ℝ), some 0, some 1]] = [-1, 0, 1] := rfl
    rw [pooled, hdc]
    exact List.mergeSort_eq_self (by norm_num [List.sorted_cons])
  have hlen : 2 ≤ (pooled (standardizeAll [[some (0 : ℝ), some 2, some 4]])).length := by
    rw [hpool]; norm_num
  exact ⟨⟨hcell, hlen⟩,
    (spec_C1 (InputFrame.mk [["A", "B", "C"], ["a", "b", "c"]]
      [[some (0 : ℝ), some 2, some 4]]) 0 0).2.2.1 (-1) hcell hlen⟩

/-- **C6** (amended): the streamlit run rejects a table with fewer than 3 total
columns before any computation and produces no output; the CLI script performs
no such validation — it runs the full pipeline and produces both output frames
even for such inputs (see the counterexample). -/
theorem spec_C6_amended (f : InputFrame) (h : f.ncols < 3) :
    runStreamlit f = none ∧
    (runCLI f).1.meta = f.meta ∧ (runCLI f).2.meta = f.meta := by
  refine ⟨by simp [runStreamlit, h], ?_, ?_⟩ <;> rw [runCLI_eq] <;> rfl

/-- **C6** counterexample: on a 2-column input (metadata only, no factor
columns) the CLI pipeline of `src/transform_betas.py` does not fail — it
produces both (empty-data) outputs, contradicting the claim that every
pipeline run fails with no output for such inputs. -/
theorem spec_C6_counterexample :
    (InputFrame.mk [["A"], ["Apple"]] []).ncols = 2 ∧
    runCLI (InputFrame.mk [["A"], ["Apple"]] []) =
      (OutputFrame.mk [["A"], ["Apple"]] [], OutputFrame.mk [["A"], ["Apple"]] []) :=
  ⟨rfl, rfl⟩

/-- **C6** witness: the amended claim at the concrete 2-column input. -/
theorem spec_C6_witness :
    (InputFrame.mk [["A"], ["Apple"]] []).ncols < 3 ∧
    (runStreamlit (InputFrame.mk [["A"], ["Apple"]] []) = none ∧
      (runCLI (InputFrame.mk [["A"], ["Apple"]] [])).1.meta = [["A"], ["Apple"]] ∧
      (runCLI (InputFrame.mk [["A"], ["Apple"]] [])).2.meta = [["A"], ["Apple"]]) := by
  have h : (InputFrame.mk [["A"], ["Apple"]] []).ncols < 3 := by
    norm_num [InputFrame.ncols]
  exact ⟨h, spec_C6_amended _ h⟩

/-- **C7**: a missing / unparseable numeric cell stays undefined at exactly its
position through both stages — the standardized and the transformed outputs are
NaN there (never a substituted zero) — and no stage drops a row: every column
keeps its length in both outputs.  The CLI pipeline computes the identical
outputs. -/
theorem spec_C7 (f : InputFrame) (i j : Nat)
    (h : cellAt f.betas i j = some none) :
    cellAt (process_dataframe f).1.data i j = some none ∧
    cellAt (process_dataframe f).2.data i j = some none ∧
    (∀ k, ((process_dataframe f).1.data.get? k).map List.length =
      (f.betas.get? k).map List.length) ∧
    (∀ k, ((process_dataframe f).2.data.get? k).map List.length =
      (f.betas.get? k).map List.length) ∧
    runCLI f = process_dataframe f := by
  have hzdef : (process_dataframe f).1.data = standardizeAll f.betas := rfl
  have ht : (process_dataframe f).2.data =
      (standardizeAll f.betas).map
        (fun col => col.map (transform_exc (pooled (standardizeAll f.betas)))) := rfl
  unfold cellAt at h
  rcases hcol : f.betas.get? i with _ | col
  · rw [hcol] at h; simp at h
  · rw [hcol] at h
    simp only [Option.some_bind] at h
    have hzc : (standardizeAll f.betas).get? i = some (standardizeColumn col) := by
      rw [standardizeAll, List.get?_map, hcol]; rfl
    have hz1 : cellAt (standardizeAll f.betas) i j = some none := by
      unfold cellAt
      rw [hzc]
      simp only [Option.some_bind]
      exact standardizeColumn_get?_none col j h
    refine ⟨by rw [hzdef]; exact hz1, ?_, ?_, ?_, runCLI_eq f⟩
    · rw [ht, cellAt_map, hz1]; rfl
    · intro k
      rw [hzdef, standardizeAll, List.get?_map]
      cases f.betas.get? k with
      | none => rfl
      | some c => simp [standardizeColumn_length]
    · intro k
      rw [ht, List.get?_map, standardizeAll, List.get?_map]
      cases f.betas.get? k with
      | none => rfl
      | some c => simp [standardizeColumn_length]

/-- **C7** witness: a column `[1, NaN, 2]` — the NaN at row 1 stays NaN at row
1 of both outputs. -/
theorem spec_C7_witness :
    cellAt (InputFrame.mk [["A", "B", "C"], ["a", "b", "c"]]
      [[some (1 : ℝ), none, some 2]]).betas 0 1 = some none ∧
    cellAt (process_dataframe (InputFrame.mk [["A", "B", "C"], ["a", "b", "c"]]
      [[some (1 : ℝ), none, some 2]])).1.data 0 1 = some none ∧
    cellAt (process_dataframe (InputFrame.mk [["A", "B", "C"], ["a", "b", "c"]]
      [[some (1 : ℝ), none, some 2]])).2.data 0 1 = some none := by
  have h : cellAt (InputFrame.mk [["A", "B", "C"], ["a", "b", "c"]]
      [[some (1 : ℝ), none, some 2]]).betas 0 1 = some none := rfl
  obtain ⟨h1, h2, -⟩ := spec_C7 (InputFrame.mk [["A", "B", "C"], ["a", "b", "c"]]
      [[some (1 : ℝ), none, some 2]]) 0 1 h
  exact ⟨h, h1, h2⟩

/-- **C8**: for a valid input (two metadata columns, `C ≥ 1` factor columns,
every column of `R` rows) both outputs carry the metadata columns verbatim and
an `R × C` numeric block, in the original order (the numeric blocks are
position-preserving maps of the input columns).  The CLI pipeline computes the
identical outputs. -/
theorem spec_C8 (f : InputFrame) (R C : Nat)
    (hmeta : f.meta.length = 2) (hC : f.betas.length = C) (hC1 : 1 ≤ C)
    (hR : ∀ col ∈ f.betas, col.length = R) :
    (process_dataframe f).1.meta = f.meta ∧
    (process_dataframe f).2.meta = f.meta ∧
    (process_dataframe f).1.data.length = C ∧
    (process_dataframe f).2.data.length = C ∧
    (∀ col ∈ (process_dataframe f).1.data, col.length = R) ∧
    (∀ col ∈ (process_dataframe f).2.data, col.length = R) ∧
    runCLI f = process_dataframe f := by
  have hzdef : (process_dataframe f).1.data = standardizeAll f.betas := rfl
  have ht : (process_dataframe f).2.data =
      (standardizeAll f.betas).map
        (fun col => col.map (transform_exc (pooled (standardizeAll f.betas)))) := rfl
  refine ⟨rfl, rfl, ?_, ?_, ?_, ?_, runCLI_eq f⟩
  · rw [hzdef, standardizeAll, List.length_map, hC]
  · rw [ht, List.length_map, standardizeAll, List.length_map, hC]
  · intro col hcol
    rw [hzdef, standardizeAll] at hcol
    obtain ⟨c, hc, rfl⟩ := List.mem_map.mp hcol
    rw [standardizeColumn_length]
    exact hR c hc
  · intro col hcol
    rw [ht] at hcol
    obtain ⟨c0, hc0, rfl⟩ := List.mem_map.mp hcol
    rw [List.length_map]
    rw [standardizeAll] at hc0
    obtain ⟨c, hc, rfl⟩ := List.mem_map.mp hc0
    rw [standardizeColumn_length]
    exact hR c hc

/-- **C8** witness: the 3-row, 1-factor-column frame keeps its shape and
metadata through both outputs. -/
theorem spec_C8_witness :
    ((InputFrame.mk [["A", "B", "C"], ["a", "b", "c"]]
        [[some (1 : ℝ), none, some 2]]).meta.length = 2 ∧
      (InputFrame.mk [["A", "B", "C"], ["a", "b", "c"]]
        [[some (1 : ℝ), none, some 2]]).betas.length = 1 ∧
      (∀ col ∈ (InputFrame.mk [["A", "B", "C"], ["a", "b", "c"]]
        [[some (1 : ℝ), none, some 2]]).betas, col.length = 3)) ∧
    ((process_dataframe (InputFrame.mk [["A", "B", "C"], ["a", "b", "c"]]
        [[some (1 : ℝ), none, some 2]])).1.meta = [["A", "B", "C"], ["a", "b", "c"]] ∧
      (process_dataframe (InputFrame.mk [["A", "B", "C"], ["a", "b", "c"]]
        [[some (1 : ℝ), none, some 2]])).2.data.length = 1) := by
  have h1 : (InputFrame.mk [["A", "B", "C"], ["a", "b", "c"]]
      [[some (1 : ℝ), none, some 2]]).meta.length = 2 := rfl
  have h2 : (InputFrame.mk [["A", "B", "C"], ["a", "b", "c"]]
      [[some (1 : ℝ), none, some 2]]).betas.length = 1 := rfl
  have h3 : (1 : Nat) ≤ 1 := le_refl 1
  have h4 : ∀ col ∈ (InputFrame.mk [["A", "B", "C"], ["a", "b", "c"]]
      [[some (1 : ℝ), none, some 2]]).betas, col.length = 3 := by
    intro col hcol
    simp only [List.mem_singleton] at hcol
    subst hcol
    rfl
  obtain ⟨ha, -, -, hb, -⟩ := spec_C8 (InputFrame.mk [["A", "B", "C"], ["a", "b", "c"]]
      [[some (1 : ℝ), none, some 2]]) 3 1 h1 h2 h3 h4
  exact ⟨⟨h1, h2, h4⟩, ha, hb⟩

/-- **C9**: the pipeline is a deterministic function of its input: two runs on
equal inputs produce equal standardized and transformed outputs, for both the
streamlit pipeline and the CLI pipeline.  (The embedded computation reads
nothing but its input frame; `st.cache_data` memoizes per input and `main`
rebuilds every matrix from the file it reads, so no state crosses runs.) -/
theorem spec_C9 (f g : InputFrame) (h : f = g) :
    process_dataframe f = process_dataframe g ∧ runCLI f = runCLI g := by
  subst h
  exact ⟨rfl, rfl⟩

/-- **C9** witness: two runs on the same concrete frame coincide. -/
theorem spec_C9_witness :
    InputFrame.mk [["A"], ["a"]] [[some (1 : ℝ), some 2]] =
      InputFrame.mk [["A"], ["a"]] [[some (1 : ℝ), some 2]] ∧
    (process_dataframe (InputFrame.mk [["A"], ["a"]] [[some (1 : ℝ), some 2]]) =
      process_dataframe (InputFrame.mk [["A"], ["a"]] [[some (1 : ℝ), some 2]]) ∧
     runCLI (InputFrame.mk [["A"], ["a"]] [[some (1 : ℝ), some 2]]) =
      runCLI (InputFrame.mk [["A"], ["a"]] [[some (1 : ℝ), some 2]])) :=
  ⟨rfl, spec_C9 _ _ rfl⟩

end TransformBetas
